import Mathlib

/-!
Shallow embedding of the tic-tac-toe engine of this repository
(`src/board.rs`, `src/player.rs`, `src/game.rs`) and proofs of its
specification properties.

Modelling conventions:
* `Cell`, `Board`, `BoardMove` mirror the Rust data types.  A Rust `BoardMove`
  can only be produced by `BoardMove::try_new`, whose `Ok` results all carry an
  index in `0..=8` (the field is private to the module); the embedding carries
  this module invariant in the type of the field (`Fin 9`).
* Rust `Result<T, ()>` is `Except Unit T`.
* `Player::minimax` recurses on boards obtained by filling one empty cell, so
  the Rust recursion depth is bounded by the number of empty cells; the
  embedding supplies that number as explicit fuel.
* `rand::thread_rng().gen_range(0..len)` panics when `len = 0` and otherwise
  returns an arbitrary index below `len`; it is modelled by an arbitrary
  `randomIndex : Nat` reduced modulo `len`, with `none` modelling the panic.
* `Game` methods mutating `&mut self` become state-passing functions; calls to
  the `Ui` collaborator are recorded as `UiEvent` values.  The moves handed
  back by `Player::get_move` (human input or CPU) are modelled by a stream
  `Nat → BoardMove`; loops that need not terminate take fuel and return `none`
  when it runs out (modelling a call that never returns).
-/

/-- Rust `enum Cell { Empty(char), O, X }` from `board.rs`. -/
inductive Cell where
  | Empty (label : Char)
  | O
  | X
deriving DecidableEq

/-- Rust `Cell::opposite` from `board.rs`. -/
def Cell.opposite : Cell → Cell
  | Cell.O => Cell.X
  | Cell.X => Cell.O
  | Cell.Empty n => Cell.Empty n

/-- The Rust pattern `matches!(cell, Cell::Empty(_))`. -/
def Cell.isEmptyCell : Cell → Bool
  | Cell.Empty _ => true
  | _ => false

/-- The Rust pattern `matches!(cell, Cell::O | Cell::X)` used when counting
occupied cells in `player.rs`. -/
def Cell.isMark : Cell → Bool
  | Cell.O => true
  | Cell.X => true
  | _ => false

/-- Rust `struct BoardMove { index: usize }` from `board.rs`.  The `index`
field is private and every constructed value has `index ∈ 0..=8` (the only
constructor is `try_new`), so the embedding uses `Fin 9`. -/
structure BoardMove where
  index : Fin 9
deriving DecidableEq

/-- Rust `BoardMove::try_new` from `board.rs`: fails outside `1..=9`, else the
internal index is `num - 1`. -/
def BoardMove.try_new (num : Nat) : Except Unit BoardMove :=
  if h : num < 1 ∨ num > 9 then Except.error ()
  else Except.ok ⟨⟨num - 1, by omega⟩⟩

/-- The number written by `impl fmt::Display for BoardMove` in `board.rs`:
`write!(f, "{}", self.index() - 1)`.  The subtraction is on `usize`; in a
release build it wraps modulo `2^64` (a debug build would panic for
`index == 0`). -/
def BoardMove.displayNum (m : BoardMove) : Nat :=
  (m.index.val + (2 ^ 64 - 1)) % 2 ^ 64

/-- Rust `struct Board { cells: [Cell; 9] }` from `board.rs`. -/
structure Board where
  cells : Fin 9 → Cell

instance : DecidableEq Board := fun a b =>
  decidable_of_iff
    (((List.finRange 9).all fun i => a.cells i == b.cells i) = true)
    (by
      constructor
      · intro h
        cases a
        cases b
        congr 1
        funext i
        exact eq_of_beq (List.all_eq_true.mp h i (List.mem_finRange i))
      · intro h
        subst h
        exact List.all_eq_true.mpr fun i _ => beq_self_eq_true (a.cells i))

/-- Rust `Board::new` from `board.rs`: all cells empty, labelled with the
ascii digit of their 1-based position (`(i + 1) as u8 + b'0'`). -/
def Board.new : Board :=
  ⟨fun i => Cell.Empty (Char.ofNat (i.val + 1 + 48))⟩

/-- The Rust assignment `board[index] = cell` through `impl IndexMut for
Board`. -/
def Board.place (b : Board) (i : Fin 9) (c : Cell) : Board :=
  ⟨fun j => if j = i then c else b.cells j⟩

/-- Rust `Board::is_full` from `board.rs`:
`!self.iter().any(|&cell| matches!(cell, Cell::Empty(_)))`. -/
def Board.is_full (b : Board) : Bool :=
  !((List.finRange 9).any fun i => (b.cells i).isEmptyCell)

/-- Rust `Board::get_possible_moves` from `board.rs`: for every cell index, in
ascending order, push a move for that index when the cell is empty (the Rust
code builds the move as `BoardMove::try_new(index + 1).unwrap()`, which has
internal index `index`). -/
def Board.get_possible_moves (b : Board) : List BoardMove :=
  (List.finRange 9).filterMap fun i =>
    if (b.cells i).isEmptyCell then some ⟨i⟩ else none

/-- Rust `Board::is_valid_move` from `board.rs`:
`self.get_possible_moves().contains(board_move)`. -/
def Board.is_valid_move (b : Board) (m : BoardMove) : Bool :=
  (b.get_possible_moves).contains m

/-- Rust `pub const WINNING_LINES: [[usize; 3]; 8]` from `board.rs` (three
columns, three rows, two diagonals, in that order). -/
def WINNING_LINES : List (Fin 9 × Fin 9 × Fin 9) :=
  [(0, 3, 6), (1, 4, 7), (2, 5, 8),
   (0, 1, 2), (3, 4, 5), (6, 7, 8),
   (0, 4, 8), (2, 4, 6)]

/-- The Rust indexing `WINNING_LINES[k]` (every use has `k < 8`). -/
def lineAt (k : Nat) : Fin 9 × Fin 9 × Fin 9 :=
  WINNING_LINES.getD k (0, 0, 0)

/-- The scanning loop of `Board::get_winning_line` in `board.rs`: walk the
lines with their enumeration index; when the three cells of a line are equal,
return the index if they hold `O` or `X`, otherwise keep scanning. -/
def Board.winning_line_scan (b : Board) :
    List (Fin 9 × Fin 9 × Fin 9) → Nat → Option Nat
  | [], _ => none
  | t :: rest, idx =>
    let c1 := b.cells t.1
    let c2 := b.cells t.2.1
    let c3 := b.cells t.2.2
    if c1 = c2 ∧ c1 = c3 then
      match c1 with
      | Cell.O => some idx
      | Cell.X => some idx
      | Cell.Empty _ => b.winning_line_scan rest (idx + 1)
    else
      b.winning_line_scan rest (idx + 1)

/-- Rust `Board::get_winning_line` from `board.rs`. -/
def Board.get_winning_line (b : Board) : Option Nat :=
  b.winning_line_scan WINNING_LINES 0

/-- Number of empty cells of a board (the measure that bounds the recursion
depth of `Player::minimax`). -/
def Board.emptyCount (b : Board) : Nat :=
  ((List.finRange 9).map b.cells).countP Cell.isEmptyCell

/-- The count `board.iter().filter(O or X).count()` from
`Player::calculate_best_move` in `player.rs`: the number of occupied cells. -/
def Board.occupiedCount (b : Board) : Nat :=
  ((List.finRange 9).map b.cells).countP Cell.isMark

/-- Rust `enum Player { Human(String), CPU }` from `player.rs`. -/
inductive Player where
  | Human (name : String)
  | CPU
deriving DecidableEq

/-- The `maximizing_player_symbol` computation at the top of
`Player::calculate_best_move` in `player.rs`: `Cell::O` when the number of
occupied cells is even, `Cell::X` when it is odd. -/
def Player.maximizing_player_symbol (b : Board) : Cell :=
  if b.occupiedCount % 2 = 0 then Cell.O else Cell.X

/-- Rust `Player::minimax` from `player.rs`, with explicit fuel.  Each
recursive call fills one empty cell with a mark, so the Rust recursion is
bounded by the number of empty cells; `Player.minimax` below instantiates the
fuel with exactly that number.  The fuel-zero case keeps the terminal checks
of the Rust code (a full board either has a winning line or is a draw); its
fallback `0` for a non-full board is never reached when the fuel is at least
`b.emptyCount`. -/
def Player.minimaxAux : Nat → Board → Cell → Bool → Int → Int
  | 0, b, maximizing_player_symbol, _, depth =>
    match b.get_winning_line with
    | some winning_line_index =>
      if b.cells (lineAt winning_line_index).1 = maximizing_player_symbol then
        100 - depth
      else depth - 100
    | none => 0
  | fuel' + 1, b, maximizing_player_symbol, is_maximizing, depth =>
    match b.get_winning_line with
    | some winning_line_index =>
      if b.cells (lineAt winning_line_index).1 = maximizing_player_symbol then
        100 - depth
      else depth - 100
    | none =>
      if b.is_full then 0
      else
        let cmp_function : Int → Int → Int :=
          if is_maximizing then max else min
        let initial_score : Int := if is_maximizing then -1000 else 1000
        let current_player_symbol : Cell :=
          if is_maximizing then maximizing_player_symbol
          else maximizing_player_symbol.opposite
        (b.get_possible_moves).foldl
          (fun best_score board_move =>
            cmp_function best_score
              (Player.minimaxAux fuel'
                (b.place board_move.index current_player_symbol)
                maximizing_player_symbol (!is_maximizing) (depth + 1)))
          initial_score

/-- Rust `Player::minimax` from `player.rs` (fuel instantiated with the exact
recursion bound). -/
def Player.minimax (b : Board) (maximizing_player_symbol : Cell)
    (is_maximizing : Bool) (depth : Int) : Int :=
  Player.minimaxAux b.emptyCount b maximizing_player_symbol is_maximizing depth

/-- The candidate-collection loop of `Player::calculate_best_move`
(`player.rs` lines 40-55): fold over the legal moves keeping the best score
seen and every move achieving it. -/
def Player.best_moves (b : Board) : List BoardMove :=
  let maximizing_player_symbol := Player.maximizing_player_symbol b
  ((b.get_possible_moves).foldl
    (fun (acc : List BoardMove × Int) board_move =>
      let score :=
        Player.minimax (b.place board_move.index maximizing_player_symbol)
          maximizing_player_symbol false 1
      if score > acc.2 then ([board_move], score)
      else if score = acc.2 then (acc.1 ++ [board_move], acc.2)
      else acc)
    ([], -1000)).1

/-- Rust `Player::calculate_best_move` from `player.rs`: collect the best
moves, then pick one at random.  `gen_range(0..len)` panics when `len = 0`
(modelled by `none`) and otherwise yields an arbitrary index below `len`
(modelled by `randomIndex % len`). -/
def Player.calculate_best_move (b : Board) (randomIndex : Nat) :
    Option BoardMove :=
  let moves := Player.best_moves b
  if h : moves.length = 0 then none
  else some (moves.get ⟨randomIndex % moves.length,
    Nat.mod_lt _ (Nat.pos_of_ne_zero h)⟩)

/-- The one-ply-ahead evaluation of a legal move inside
`Player::calculate_best_move`: place the maximizing mark and run `minimax`
with the opponent to move at depth 1. -/
def Player.moveScore (b : Board) (m : BoardMove) : Int :=
  Player.minimax (b.place m.index (Player.maximizing_player_symbol b))
    (Player.maximizing_player_symbol b) false 1

/-- The running maximum `best_eval` computed by the candidate-collection loop
of `Player::calculate_best_move` (initial value `-1000`). -/
def Player.maxEval (b : Board) : Int :=
  (b.get_possible_moves).foldl (fun e m => max e (Player.moveScore b m)) (-1000)

/-- Rust `enum GameResult` from `game.rs` (winner display name and winning
line index). -/
inductive GameResult where
  | PlayerWon (name : String) (line : Nat)
  | Draw
deriving DecidableEq

/-- Rust `enum GameState` from `game.rs`. -/
inductive GameState where
  | NotStarted
  | Ongoing
  | Finished (result : GameResult)
deriving DecidableEq

/-- Rust `struct Game` from `game.rs` (the borrowed `Ui` handle is modelled by
the event trace returned by each operation instead). -/
structure Game where
  board : Board
  players : Fin 2 → Player
  current_player : Nat
  game_state : GameState

instance : DecidableEq Game := fun a b =>
  decidable_of_iff
    (a.board = b.board ∧ (a.players 0 = b.players 0 ∧ a.players 1 = b.players 1) ∧
      a.current_player = b.current_player ∧ a.game_state = b.game_state)
    (by
      constructor
      · rintro ⟨h1, ⟨h20, h21⟩, h3, h4⟩
        cases a
        cases b
        simp only [Game.mk.injEq]
        refine ⟨h1, ?_, h3, h4⟩
        funext i
        match i with
        | 0 => exact h20
        | 1 => exact h21
      · rintro rfl
        exact ⟨rfl, ⟨rfl, rfl⟩, rfl, rfl⟩)

/-- A call made to the `Ui` collaborator. -/
inductive UiEvent where
  | UpdateBoard (b : Board)
  | NotifyResult (r : GameResult)
deriving DecidableEq

/-- Whether a `Ui` call is a terminal-result notification. -/
def UiEvent.isNotify : UiEvent → Bool
  | UiEvent.NotifyResult _ => true
  | _ => false

/-- Rust `Game::new` from `game.rs`. -/
def Game.new (player1 player2 : Player) : Game :=
  { board := Board.new
    players := ![player1, player2]
    current_player := 0
    game_state := GameState.NotStarted }

/-- Rust `Game::is_valid_move` from `game.rs`: pattern-match on the cell at
the move's index. -/
def Game.is_valid_move (g : Game) (player_move : BoardMove) : Bool :=
  match g.board.cells player_move.index with
  | Cell.Empty _ => true
  | _ => false

/-- Rust `Game::current_player_make_move` from `game.rs`: write `Cell::O` for
player index 0 and `Cell::X` for player index 1. -/
def Game.current_player_make_move (g : Game) (player_move : BoardMove) : Game :=
  let mark := if g.current_player = 0 then Cell.O else Cell.X
  { g with board := g.board.place player_move.index mark }

/-- The scanning loop of `Game::check_if_over` in `game.rs`: find the first
line whose three cells are equal and hold a mark, and report the winning
player index (0 for `O`, 1 for `X`) with the line index. -/
def Game.winner_scan (g : Game) :
    List (Fin 9 × Fin 9 × Fin 9) → Nat → Option (Fin 2 × Nat)
  | [], _ => none
  | t :: rest, idx =>
    let c1 := g.board.cells t.1
    let c2 := g.board.cells t.2.1
    let c3 := g.board.cells t.2.2
    if c1 = c2 ∧ c1 = c3 then
      match c1 with
      | Cell.O => some (0, idx)
      | Cell.X => some (1, idx)
      | Cell.Empty _ => g.winner_scan rest (idx + 1)
    else
      g.winner_scan rest (idx + 1)

/-- Rust `Game::check_if_over` from `game.rs`: a completed line finishes the
game with `PlayerWon` (the winner's display name is the `Human` name or
`"CPU"`); otherwise a full board finishes it with `Draw`. -/
def Game.check_if_over (g : Game) : Game :=
  match g.winner_scan WINNING_LINES 0 with
  | some (winner, index) =>
    let winner_name :=
      match g.players winner with
      | Player.Human name => name
      | Player.CPU => "CPU"
    { g with game_state :=
        GameState.Finished (GameResult.PlayerWon winner_name index) }
  | none =>
    if (List.finRange 9).any (fun i => (g.board.cells i).isEmptyCell) then g
    else { g with game_state := GameState.Finished GameResult.Draw }

/-- The retry loop of `Game::take_turn` in `game.rs`: keep requesting moves
from the active player (modelled by the stream, position `k`) until one is
valid.  Fuel exhaustion (`none`) models a player that never supplies a valid
move. -/
def Game.find_valid_move (g : Game) (stream : Nat → BoardMove) :
    Nat → Nat → Option (BoardMove × Nat)
  | _, 0 => none
  | k, fuel + 1 =>
    let player_move := stream k
    if g.is_valid_move player_move then some (player_move, k + 1)
    else g.find_valid_move stream (k + 1) fuel

/-- Rust `Game::take_turn` from `game.rs`: show the board, obtain a valid
move, apply it. -/
def Game.take_turn (g : Game) (stream : Nat → BoardMove) (k fuel : Nat) :
    Option (Game × Nat) × List UiEvent :=
  match g.find_valid_move stream k fuel with
  | some (player_move, k2) =>
    (some (g.current_player_make_move player_move, k2),
      [UiEvent.UpdateBoard g.board])
  | none => (none, [UiEvent.UpdateBoard g.board])

/-- One iteration of the `while` loop in `Game::start`: `take_turn`,
`check_if_over`, then flip the active player index. -/
def Game.loop_iter (g : Game) (stream : Nat → BoardMove) (k fuel : Nat) :
    Option (Game × Nat) × List UiEvent :=
  match g.take_turn stream k fuel with
  | (some (g1, k1), evs) =>
    let g2 := g1.check_if_over
    (some ({ g2 with current_player := if g2.current_player = 0 then 1 else 0 },
      k1), evs)
  | (none, evs) => (none, evs)

/-- The `while self.game_state == GameState::Ongoing` loop of `Game::start`.
`none` models a loop that never exits within the given fuel. -/
def Game.run_loop (stream : Nat → BoardMove) :
    Nat → Game → Nat → Option (Game × List UiEvent)
  | 0, g, _ => if g.game_state = GameState.Ongoing then none else some (g, [])
  | fuel + 1, g, k =>
    if g.game_state = GameState.Ongoing then
      match g.loop_iter stream k fuel with
      | (some (g2, k2), evs) =>
        match Game.run_loop stream fuel g2 k2 with
        | some (g3, evs2) => some (g3, evs ++ evs2)
        | none => none
      | (none, _) => none
    else some (g, [])

/-- Rust `Game::announce_result` from `game.rs`: show the board, then notify
the result only when the game is finished. -/
def Game.announce_result (g : Game) : List UiEvent :=
  UiEvent.UpdateBoard g.board ::
    (match g.game_state with
     | GameState.Finished result => [UiEvent.NotifyResult result]
     | _ => [])

/-- Rust `Game::start` from `game.rs`: when the state is `NotStarted`, switch
to `Ongoing`, run the turn loop and announce the result; otherwise do nothing
(the Rust function body is skipped entirely).  The Rust return type is `()`;
the state and the trace of `Ui` calls are the state-passing rendering of the
`&mut self` effects. -/
def Game.start (g : Game) (stream : Nat → BoardMove) (fuel : Nat) :
    Option (Game × List UiEvent) :=
  if g.game_state = GameState.NotStarted then
    match Game.run_loop stream fuel { g with game_state := GameState.Ongoing } 0
      with
    | some (g2, evs) => some (g2, evs ++ g2.announce_result)
    | none => none
  else some (g, [])

/-- The value the Rust function `Game::start` returns to its caller: `()`
(the function's return type is the unit type, independent of the computed
`GameResult`). -/
def Game.startReturn (g : Game) (stream : Nat → BoardMove) (fuel : Nat) :
    Option Unit :=
  (g.start stream fuel).map fun _ => ()

/-- The states reachable by the `Game` turn loop: a freshly constructed game,
the `NotStarted → Ongoing` transition performed by `start`, and one iteration
of the turn loop (for an arbitrary supply of moves). -/
inductive Game.Reachable : Game → Prop where
  | init (player1 player2 : Player) : Game.Reachable (Game.new player1 player2)
  | started (g : Game) (h : Game.Reachable g)
      (hns : g.game_state = GameState.NotStarted) :
      Game.Reachable { g with game_state := GameState.Ongoing }
  | step (g : Game) (stream : Nat → BoardMove) (k fuel : Nat) (g2 : Game)
      (k2 : Nat) (evs : List UiEvent) (h : Game.Reachable g)
      (ho : g.game_state = GameState.Ongoing)
      (hi : g.loop_iter stream k fuel = (some (g2, k2), evs)) :
      Game.Reachable g2

/-- A property written from the specification text, for comparison with the
source-derived scan `Board.winning_line_scan`: the three cells of a triplet
are equal and hold a non-empty mark. -/
def tripletWins (b : Board) (t : Fin 9 × Fin 9 × Fin 9) : Prop :=
  b.cells t.1 = b.cells t.2.1 ∧ b.cells t.1 = b.cells t.2.2 ∧
  (b.cells t.1 = Cell.O ∨ b.cells t.1 = Cell.X)

instance (b : Board) (t : Fin 9 × Fin 9 × Fin 9) : Decidable (tripletWins b t) := by
  unfold tripletWins; infer_instance

/-- Line `k` is a completed line: its three cells are equal and hold the same
non-empty mark (written from the specification text). -/
def lineWins (b : Board) (k : Nat) : Prop :=
  tripletWins b (lineAt k)

instance (b : Board) (k : Nat) : Decidable (lineWins b k) := by
  unfold lineWins; infer_instance

/-- The board of specification §8's worked example: `[O,_,X,O,O,_,_,_,X]`
(indices 0,3,4 hold `O`; indices 2,8 hold `X`). -/
def boardC3 : Board :=
  ⟨![Cell.O, Cell.Empty '2', Cell.X, Cell.O, Cell.O, Cell.Empty '6',
     Cell.Empty '7', Cell.Empty '8', Cell.X]⟩

/-- A full board with no completed line (the draw board of the `game.rs`
tests). -/
def drawBoardW : Board :=
  ⟨![Cell.O, Cell.X, Cell.O, Cell.X, Cell.X, Cell.O, Cell.O, Cell.O, Cell.X]⟩

/-- A full board (the one used by the `player.rs` panic test). -/
def fullBoardW : Board :=
  ⟨![Cell.O, Cell.O, Cell.X, Cell.X, Cell.X, Cell.O, Cell.O, Cell.X, Cell.O]⟩

/-- A not-yet-started game one move away from an `O` win on the top row. -/
def g0W : Game :=
  { board := ⟨![Cell.O, Cell.O, Cell.Empty '3', Cell.X, Cell.X, Cell.Empty '6',
      Cell.Empty '7', Cell.Empty '8', Cell.Empty '9']⟩
    players := ![Player.Human "A", Player.Human "B"]
    current_player := 0
    game_state := GameState.NotStarted }

/-- A move stream that always offers the move with index 2. -/
def streamW : Nat → BoardMove := fun _ => ⟨2⟩

/-- The state `g0W` reaches after `start` completes its single turn: `O` is
placed at index 2, the top row (line index 3) is found complete, and the
active player index flips to 1. -/
def g1W : Game :=
  { (Game.current_player_make_move
      { g0W with game_state := GameState.Ongoing } ⟨2⟩).check_if_over with
    current_player := 1 }

/-- The `Ui` trace of that completed run. -/
def evsW : List UiEvent :=
  [UiEvent.UpdateBoard g0W.board, UiEvent.UpdateBoard g1W.board,
   UiEvent.NotifyResult (GameResult.PlayerWon "A" 3)]

/-- A board whose first column (line index 0) is completed by `O`. -/
def colWinBoardW : Board :=
  ⟨![Cell.O, Cell.X, Cell.X, Cell.O, Cell.Empty '5', Cell.Empty '6',
     Cell.O, Cell.Empty '8', Cell.Empty '9']⟩

/-- A game already finished with a draw. -/
def gDrawW : Game :=
  { board := drawBoardW
    players := ![Player.Human "A", Player.Human "B"]
    current_player := 0
    game_state := GameState.Finished GameResult.Draw }

/-! ### Basic facts about cells, moves and boards -/

theorem Cell.isMark_iff (c : Cell) : c.isMark = true ↔ c = Cell.O ∨ c = Cell.X := by
  cases c <;> simp [Cell.isMark]

theorem Cell.isEmptyCell_eq_not_isMark (c : Cell) :
    c.isEmptyCell = !c.isMark := by
  cases c <;> rfl

theorem Cell.opposite_isMark (c : Cell) (h : c.isMark = true) :
    c.opposite.isMark = true := by
  cases c <;> simp_all [Cell.isMark, Cell.opposite]

theorem filterMap_if_eq_map_filter {α β : Type} (p : α → Bool) (h : α → β) :
    ∀ l : List α,
      (l.filterMap fun a => if p a then some (h a) else none)
        = (l.filter p).map h
  | [] => rfl
  | a :: t => by
    by_cases hp : p a <;>
      simp [List.filterMap_cons, List.filter_cons, hp,
        filterMap_if_eq_map_filter p h t]

theorem mem_get_possible_moves (b : Board) (m : BoardMove) :
    m ∈ b.get_possible_moves ↔ (b.cells m.index).isEmptyCell = true := by
  unfold Board.get_possible_moves
  rw [List.mem_filterMap]
  constructor
  · rintro ⟨i, -, hi⟩
    by_cases hp : (b.cells i).isEmptyCell
    · rw [if_pos hp] at hi
      cases hi
      exact hp
    · rw [if_neg hp] at hi
      cases hi
  · intro hm
    refine ⟨m.index, List.mem_finRange _, ?_⟩
    rw [if_pos hm]

theorem get_possible_moves_eq (b : Board) :
    b.get_possible_moves
      = ((List.finRange 9).filter fun i => (b.cells i).isEmptyCell).map
          (fun i => (⟨i⟩ : BoardMove)) :=
  filterMap_if_eq_map_filter _ _ _

theorem length_get_possible_moves (b : Board) :
    b.get_possible_moves.length = b.emptyCount := by
  rw [get_possible_moves_eq, List.length_map, ← List.countP_eq_length_filter,
    Board.emptyCount, List.countP_map]
  rfl

theorem countP_update {α : Type} (f g : α → Bool) (i : α) :
    ∀ l : List α, l.Nodup → i ∈ l → (∀ j ∈ l, j ≠ i → f j = g j) →
      l.countP f + (if g i then 1 else 0)
        = l.countP g + (if f i then 1 else 0)
  | [], _, hi, _ => by cases hi
  | a :: t, hnd, hi, hagree => by
    rw [List.nodup_cons] at hnd
    rw [List.countP_cons, List.countP_cons]
    rcases List.mem_cons.mp hi with rfl | hit
    · have ht : t.countP f = t.countP g :=
        List.countP_congr fun j hj => by
          rw [hagree j (List.mem_cons_of_mem _ hj) fun hji => hnd.1 (hji ▸ hj)]
    -- the cells not written keep their count; only position `i` changes
      rw [ht]
      omega
    · have ha : f a = g a :=
        hagree a (List.mem_cons_self _ _) fun hai => hnd.1 (hai ▸ hit)
      have := countP_update f g i t hnd.2 hit
        fun j hj hji => hagree j (List.mem_cons_of_mem _ hj) hji
      rw [ha]
      omega

theorem countP_place (b : Board) (i : Fin 9) (c : Cell) (p : Cell → Bool) :
    ((List.finRange 9).map (b.place i c).cells).countP p
        + (if p (b.cells i) then 1 else 0)
      = ((List.finRange 9).map b.cells).countP p + (if p c then 1 else 0) := by
  rw [List.countP_map, List.countP_map]
  have h := countP_update (fun j => p ((b.place i c).cells j))
    (fun j => p (b.cells j)) i (List.finRange 9) (List.nodup_finRange 9)
    (List.mem_finRange i)
    (fun j _ hji => by simp [Board.place, hji])
  simpa [Board.place] using h

theorem emptyCount_place (b : Board) (i : Fin 9) (c : Cell)
    (hi : (b.cells i).isEmptyCell = true) (hc : c.isMark = true) :
    (b.place i c).emptyCount + 1 = b.emptyCount := by
  have h := countP_place b i c Cell.isEmptyCell
  rw [hi] at h
  have hce : c.isEmptyCell = false := by
    rw [Cell.isEmptyCell_eq_not_isMark, hc]
    rfl
  rw [hce] at h
  simpa [Board.emptyCount] using h

theorem occupiedCount_place (b : Board) (i : Fin 9) (c : Cell)
    (hi : (b.cells i).isEmptyCell = true) (hc : c.isMark = true) :
    (b.place i c).occupiedCount = b.occupiedCount + 1 := by
  have h := countP_place b i c Cell.isMark
  have hbm : (b.cells i).isMark = false := by
    have := Cell.isEmptyCell_eq_not_isMark (b.cells i)
    rw [hi] at this
    cases hm : (b.cells i).isMark
    · rfl
    · rw [hm] at this
      cases this
  rw [hbm, hc] at h
  simpa [Board.occupiedCount] using h

theorem emptyCount_le_nine (b : Board) : b.emptyCount ≤ 9 := by
  have h : ((List.finRange 9).map b.cells).countP Cell.isEmptyCell
      ≤ ((List.finRange 9).map b.cells).length :=
    List.countP_le_length Cell.isEmptyCell
  simpa [Board.emptyCount] using h

theorem emptyCount_add_occupiedCount (b : Board) :
    b.emptyCount + b.occupiedCount = 9 := by
  unfold Board.emptyCount Board.occupiedCount
  have h : ∀ l : List Cell, l.countP Cell.isEmptyCell + l.countP Cell.isMark
      = l.length := by
    intro l
    induction l with
    | nil => rfl
    | cons a t ih =>
      rw [List.countP_cons, List.countP_cons, List.length_cons]
      have hme := Cell.isEmptyCell_eq_not_isMark a
      cases hm : a.isMark <;> rw [hm] at hme <;> simp [hme, hm] <;> omega
  rw [h]
  simp

theorem is_full_true_iff (b : Board) : b.is_full = true ↔ b.emptyCount = 0 := by
  unfold Board.is_full Board.emptyCount
  rw [Bool.not_eq_true', List.any_eq_false, List.countP_eq_zero]
  constructor
  · intro h c hc
    rcases List.mem_map.mp hc with ⟨i, -, rfl⟩
    exact h i (List.mem_finRange i)
  · intro h i _
    exact h (b.cells i) (List.mem_map_of_mem _ (List.mem_finRange i))

theorem is_full_false_iff (b : Board) :
    b.is_full = false ↔ 0 < b.emptyCount := by
  have h := is_full_true_iff b
  constructor
  · intro hf
    rcases Nat.eq_zero_or_pos b.emptyCount with h0 | h0
    · rw [h.mpr h0] at hf
      cases hf
    · exact h0
  · intro hp
    cases hb : b.is_full
    · rfl
    · have := h.mp hb
      omega

/-! ### Folds computing maxima and minima -/

theorem le_foldl_max_init {α : Type} (f : α → Int) :
    ∀ (l : List α) (e : Int), e ≤ l.foldl (fun e m => max e (f m)) e
  | [], e => le_refl e
  | a :: t, e =>
    le_trans (le_max_left e (f a)) (le_foldl_max_init f t (max e (f a)))

theorem le_foldl_max_of_mem {α : Type} (f : α → Int) :
    ∀ (l : List α) (e : Int) (a : α), a ∈ l →
      f a ≤ l.foldl (fun e m => max e (f m)) e
  | [], _, _, h => absurd h (List.not_mem_nil _)
  | b :: t, e, a, h => by
    rcases List.mem_cons.mp h with rfl | ht
    · exact le_trans (le_max_right e (f a)) (le_foldl_max_init f t _)
    · exact le_foldl_max_of_mem f t _ a ht

theorem foldl_max_le {α : Type} (f : α → Int) (c : Int) :
    ∀ (l : List α) (e : Int), e ≤ c → (∀ a ∈ l, f a ≤ c) →
      l.foldl (fun e m => max e (f m)) e ≤ c
  | [], _, he, _ => he
  | a :: t, e, he, h =>
    foldl_max_le f c t (max e (f a)) (max_le he (h a (List.mem_cons_self a t)))
      fun x hx => h x (List.mem_cons_of_mem a hx)

theorem foldl_max_attained {α : Type} (f : α → Int) :
    ∀ (l : List α) (e : Int),
      l.foldl (fun e m => max e (f m)) e = e ∨
        ∃ a ∈ l, l.foldl (fun e m => max e (f m)) e = f a
  | [], e => Or.inl rfl
  | a :: t, e => by
    rcases foldl_max_attained f t (max e (f a)) with h | ⟨x, hx, hfx⟩
    · rcases max_choice e (f a) with hm | hm
      · exact Or.inl (by rw [List.foldl_cons, h, hm])
      · exact Or.inr ⟨a, List.mem_cons_self a t, by rw [List.foldl_cons, h, hm]⟩
    · exact Or.inr ⟨x, List.mem_cons_of_mem a hx, by rw [List.foldl_cons, hfx]⟩

theorem foldl_min_le_init {α : Type} (f : α → Int) :
    ∀ (l : List α) (e : Int), l.foldl (fun e m => min e (f m)) e ≤ e
  | [], e => le_refl e
  | a :: t, e =>
    le_trans (foldl_min_le_init f t (min e (f a))) (min_le_left e (f a))

theorem foldl_min_le_of_mem {α : Type} (f : α → Int) :
    ∀ (l : List α) (e : Int) (a : α), a ∈ l →
      l.foldl (fun e m => min e (f m)) e ≤ f a
  | [], _, _, h => absurd h (List.not_mem_nil _)
  | b :: t, e, a, h => by
    rcases List.mem_cons.mp h with rfl | ht
    · exact le_trans (foldl_min_le_init f t _) (min_le_right e (f a))
    · exact foldl_min_le_of_mem f t _ a ht

theorem le_foldl_min {α : Type} (f : α → Int) (c : Int) :
    ∀ (l : List α) (e : Int), c ≤ e → (∀ a ∈ l, c ≤ f a) →
      c ≤ l.foldl (fun e m => min e (f m)) e
  | [], _, he, _ => he
  | a :: t, e, he, h =>
    le_foldl_min f c t (min e (f a)) (le_min he (h a (List.mem_cons_self a t)))
      fun x hx => h x (List.mem_cons_of_mem a hx)

/-- Characterization of the candidate-collection loop of
`Player::calculate_best_move`: after folding, the accumulator holds the
running maximum together with every element achieving it (the initial list is
kept only when the initial score is never beaten). -/
theorem collect_foldl {α : Type} (f : α → Int) :
    ∀ (l : List α) (ms0 : List α) (e0 : Int),
      l.foldl
        (fun (acc : List α × Int) m =>
          if f m > acc.2 then ([m], f m)
          else if f m = acc.2 then (acc.1 ++ [m], acc.2)
          else acc)
        (ms0, e0)
      = ((if e0 = l.foldl (fun e m => max e (f m)) e0 then ms0 else [])
            ++ l.filter (fun m => decide (f m = l.foldl (fun e m => max e (f m)) e0)),
         l.foldl (fun e m => max e (f m)) e0)
  | [], ms0, e0 => by simp
  | a :: t, ms0, e0 => by
    have hE : (a :: t).foldl (fun e m => max e (f m)) e0
        = t.foldl (fun e m => max e (f m)) (max e0 (f a)) := rfl
    rcases lt_trichotomy (f a) e0 with hlt | heq | hgt
    · have hmax : max e0 (f a) = e0 := max_eq_left (le_of_lt hlt)
      have hstep : (if f a > (ms0, e0).2 then ([a], f a)
          else if f a = (ms0, e0).2 then ((ms0, e0).1 ++ [a], (ms0, e0).2)
          else (ms0, e0)) = (ms0, e0) := by
        dsimp only
        rw [if_neg (by omega), if_neg (by omega)]
      rw [List.foldl_cons, hstep, collect_foldl f t ms0 e0]
      simp only [hE, hmax, List.filter_cons, decide_eq_true_eq]
      have hne : ¬f a = t.foldl (fun e m => max e (f m)) e0 := by
        have := le_foldl_max_init f t e0
        omega
      rw [if_neg hne]
    · have hmax : max e0 (f a) = e0 := max_eq_left (le_of_eq heq)
      have hstep : (if f a > (ms0, e0).2 then ([a], f a)
          else if f a = (ms0, e0).2 then ((ms0, e0).1 ++ [a], (ms0, e0).2)
          else (ms0, e0)) = (ms0 ++ [a], e0) := by
        dsimp only
        rw [if_neg (by omega), if_pos heq]
      rw [List.foldl_cons, hstep, collect_foldl f t (ms0 ++ [a]) e0]
      simp only [hE, hmax, List.filter_cons, decide_eq_true_eq]
      by_cases he : e0 = t.foldl (fun e m => max e (f m)) e0
      · rw [if_pos he, if_pos he, if_pos (heq.trans he)]
        simp
      · rw [if_neg he, if_neg he,
          if_neg (show ¬f a = t.foldl (fun e m => max e (f m)) e0 from
            fun hc => he (heq.symm.trans hc))]
    · have hmax : max e0 (f a) = f a := max_eq_right (le_of_lt hgt)
      have hstep : (if f a > (ms0, e0).2 then ([a], f a)
          else if f a = (ms0, e0).2 then ((ms0, e0).1 ++ [a], (ms0, e0).2)
          else (ms0, e0)) = ([a], f a) := by
        dsimp only
        rw [if_pos (by omega)]
      rw [List.foldl_cons, hstep, collect_foldl f t [a] (f a)]
      simp only [hE, hmax, List.filter_cons, decide_eq_true_eq]
      have hne : ¬e0 = t.foldl (fun e m => max e (f m)) (f a) := by
        have := le_foldl_max_init f t (f a)
        omega
      rw [if_neg hne]
      by_cases hfa : f a = t.foldl (fun e m => max e (f m)) (f a)
      · rw [if_pos hfa, if_pos hfa]
        simp
      · rw [if_neg hfa, if_neg hfa]

/-- The list built by the collection loop of `Player::calculate_best_move` is
exactly the list of legal moves whose one-ply score equals the running
maximum. -/
theorem best_moves_eq_filter (b : Board) :
    Player.best_moves b
      = (b.get_possible_moves).filter
          (fun m => decide (Player.moveScore b m = Player.maxEval b)) := by
  have h := collect_foldl
    (fun m : BoardMove =>
      Player.minimax (b.place m.index (Player.maximizing_player_symbol b))
        (Player.maximizing_player_symbol b) false 1)
    (b.get_possible_moves) [] (-1000)
  have h1 : Player.best_moves b
      = ((if (-1000 : Int) = Player.maxEval b then ([] : List BoardMove) else [])
          ++ (b.get_possible_moves).filter
              (fun m => decide (Player.moveScore b m = Player.maxEval b))) :=
    congrArg Prod.fst h
  rw [h1, ite_self]
  rfl

/-! ### Unfolding equations and bounds for the minimax evaluator -/

theorem minimaxAux_win (fuel : Nat) (b : Board) (sym : Cell) (isMax : Bool)
    (depth : Int) (idx : Nat) (h : b.get_winning_line = some idx) :
    Player.minimaxAux fuel b sym isMax depth
      = if b.cells (lineAt idx).1 = sym then 100 - depth else depth - 100 := by
  cases fuel <;> simp only [Player.minimaxAux] <;> rw [h]

theorem minimaxAux_draw (fuel : Nat) (b : Board) (sym : Cell) (isMax : Bool)
    (depth : Int) (hw : b.get_winning_line = none) (hf : b.is_full = true) :
    Player.minimaxAux fuel b sym isMax depth = 0 := by
  cases fuel <;> simp only [Player.minimaxAux] <;> rw [hw]
  rw [hf]
  rfl

theorem minimaxAux_step (fuel : Nat) (b : Board) (sym : Cell) (isMax : Bool)
    (depth : Int) (hw : b.get_winning_line = none) (hf : b.is_full = false) :
    Player.minimaxAux (fuel + 1) b sym isMax depth
      = (b.get_possible_moves).foldl
          (fun best_score m =>
            (if isMax then max else min) best_score
              (Player.minimaxAux fuel
                (b.place m.index (if isMax then sym else sym.opposite))
                sym (!isMax) (depth + 1)))
          (if isMax then -1000 else 1000) := by
  simp only [Player.minimaxAux]
  rw [hw, hf]
  rfl

theorem maximizing_player_symbol_isMark (b : Board) :
    (Player.maximizing_player_symbol b).isMark = true := by
  unfold Player.maximizing_player_symbol
  split <;> rfl

theorem minimaxAux_bounds :
    ∀ (fuel : Nat) (b : Board) (sym : Cell) (isMax : Bool) (depth : Int),
      sym.isMark = true → b.emptyCount ≤ fuel → 1 ≤ depth →
      depth + (b.emptyCount : Int) ≤ 10 →
      -99 ≤ Player.minimaxAux fuel b sym isMax depth ∧
        Player.minimaxAux fuel b sym isMax depth ≤ 99
  | fuel, b, sym, isMax, depth => by
    intro hm hfuel hd hsum
    have hnn : (0 : Int) ≤ (b.emptyCount : Int) := Int.natCast_nonneg _
    rcases hw : b.get_winning_line with _ | idx
    · rcases hf : b.is_full with _ | _
      · have hec : 0 < b.emptyCount := (is_full_false_iff b).mp hf
        obtain ⟨fuel2, rfl⟩ : ∃ k, fuel = k + 1 := ⟨fuel - 1, by omega⟩
        rw [minimaxAux_step fuel2 b sym isMax depth hw hf]
        have hne : b.get_possible_moves ≠ [] := by
          intro h0
          have hlen := length_get_possible_moves b
          rw [h0] at hlen
          simp at hlen
          omega
        obtain ⟨m0, hm0⟩ := List.exists_mem_of_ne_nil _ hne
        have hchild : ∀ m ∈ b.get_possible_moves,
            -99 ≤ Player.minimaxAux fuel2
                (b.place m.index (if isMax then sym else sym.opposite)) sym
                (!isMax) (depth + 1) ∧
              Player.minimaxAux fuel2
                (b.place m.index (if isMax then sym else sym.opposite)) sym
                (!isMax) (depth + 1) ≤ 99 := by
          intro m hmem
          have hcm : (if isMax then sym else sym.opposite).isMark = true := by
            cases isMax
            · exact Cell.opposite_isMark sym hm
            · exact hm
          have hemp : (b.cells m.index).isEmptyCell = true :=
            (mem_get_possible_moves b m).mp hmem
          have hplace := emptyCount_place b m.index _ hemp hcm
          exact minimaxAux_bounds fuel2 _ sym (!isMax) (depth + 1) hm
            (by omega) (by omega) (by omega)
        cases isMax
        · have hc : (if false = true then (max : Int → Int → Int) else min)
              = min := rfl
          have hi : (if false = true then (-1000 : Int) else 1000) = 1000 := rfl
          have hs : (if false = true then sym else sym.opposite)
              = sym.opposite := rfl
          rw [hc, hi] at *
          simp only [hc, hi, hs] at hchild ⊢
          constructor
          · exact le_foldl_min _ (-99) _ 1000 (by omega)
              fun a ha => (hchild a ha).1
          · exact le_trans (foldl_min_le_of_mem _ _ 1000 m0 hm0)
              (hchild m0 hm0).2
        · have hc : (if true = true then (max : Int → Int → Int) else min)
              = max := rfl
          have hi : (if true = true then (-1000 : Int) else 1000) = -1000 := rfl
          have hs : (if true = true then sym else sym.opposite) = sym := rfl
          simp only [hc, hi, hs] at hchild ⊢
          constructor
          · exact le_trans (hchild m0 hm0).1
              (le_foldl_max_of_mem _ _ (-1000) m0 hm0)
          · exact foldl_max_le _ 99 _ (-1000) (by omega)
              fun a ha => (hchild a ha).2
      · rw [minimaxAux_draw fuel b sym isMax depth hw hf]
        omega
    · rw [minimaxAux_win fuel b sym isMax depth idx hw]
      split <;> omega

/-! ### Characterization of the winning-line scan -/

theorem winning_line_scan_cons_pos (b : Board) (t : Fin 9 × Fin 9 × Fin 9)
    (rest : List (Fin 9 × Fin 9 × Fin 9)) (s : Nat) (htw : tripletWins b t) :
    b.winning_line_scan (t :: rest) s = some s := by
  obtain ⟨h12, h13, hOX⟩ := htw
  simp only [Board.winning_line_scan]
  rw [if_pos ⟨h12, h13⟩]
  rcases hOX with hO | hX
  · rw [hO]
  · rw [hX]

theorem winning_line_scan_cons_neg (b : Board) (t : Fin 9 × Fin 9 × Fin 9)
    (rest : List (Fin 9 × Fin 9 × Fin 9)) (s : Nat) (htw : ¬ tripletWins b t) :
    b.winning_line_scan (t :: rest) s = b.winning_line_scan rest (s + 1) := by
  simp only [Board.winning_line_scan]
  by_cases h12 : b.cells t.1 = b.cells t.2.1 ∧ b.cells t.1 = b.cells t.2.2
  · rw [if_pos h12]
    rcases hc : b.cells t.1 with lab | _ | _
    · rfl
    · exact absurd ⟨h12.1, h12.2, Or.inl hc⟩ htw
    · exact absurd ⟨h12.1, h12.2, Or.inr hc⟩ htw
  · rw [if_neg h12]

theorem winning_line_scan_some (b : Board) :
    ∀ (L : List (Fin 9 × Fin 9 × Fin 9)) (s k : Nat),
      b.winning_line_scan L s = some k ↔
        ∃ i, i < L.length ∧ k = s + i ∧ tripletWins b (L.getD i (0, 0, 0)) ∧
          ∀ j, j < i → ¬ tripletWins b (L.getD j (0, 0, 0))
  | [], s, k => by
    simp [Board.winning_line_scan]
  | t :: rest, s, k => by
    by_cases htw : tripletWins b t
    · rw [winning_line_scan_cons_pos b t rest s htw]
      constructor
      · intro hk
        injection hk with hk
        exact ⟨0, Nat.succ_pos _, by omega, by simpa using htw,
          fun j hj => absurd hj (Nat.not_lt_zero j)⟩
      · rintro ⟨i, hi, hk, htrip, hmin⟩
        rcases Nat.eq_zero_or_pos i with rfl | hpos
        · simp [hk]
        · exact absurd (by simpa using htw) (hmin 0 hpos)
    · rw [winning_line_scan_cons_neg b t rest s htw,
        winning_line_scan_some b rest (s + 1) k]
      constructor
      · rintro ⟨i, hi, hk, htrip, hmin⟩
        refine ⟨i + 1, by simpa using hi, by omega, by simpa using htrip,
          fun j hj => ?_⟩
        rcases Nat.eq_zero_or_pos j with rfl | hpos
        · simpa using htw
        · obtain ⟨j2, rfl⟩ : ∃ j2, j = j2 + 1 := ⟨j - 1, by omega⟩
          simpa using hmin j2 (by omega)
      · rintro ⟨i, hi, hk, htrip, hmin⟩
        rcases Nat.eq_zero_or_pos i with rfl | hpos
        · exact absurd (by simpa using htrip) htw
        · obtain ⟨i2, rfl⟩ : ∃ i2, i = i2 + 1 := ⟨i - 1, by omega⟩
          exact ⟨i2, by simpa using hi, by omega, by simpa using htrip,
            fun j hj => by simpa using hmin (j + 1) (by omega)⟩

theorem winning_line_scan_none (b : Board) :
    ∀ (L : List (Fin 9 × Fin 9 × Fin 9)) (s : Nat),
      b.winning_line_scan L s = none ↔
        ∀ i, i < L.length → ¬ tripletWins b (L.getD i (0, 0, 0))
  | [], s => by
    simp [Board.winning_line_scan]
  | t :: rest, s => by
    by_cases htw : tripletWins b t
    · rw [winning_line_scan_cons_pos b t rest s htw]
      constructor
      · intro h
        cases h
      · intro h
        exact absurd (show tripletWins b ((t :: rest).getD 0 (0, 0, 0)) by
          simpa using htw) (h 0 (Nat.succ_pos _))
    · rw [winning_line_scan_cons_neg b t rest s htw,
        winning_line_scan_none b rest (s + 1)]
      constructor
      · intro h i hi
        rcases Nat.eq_zero_or_pos i with rfl | hpos
        · simpa using htw
        · obtain ⟨i2, rfl⟩ : ∃ i2, i = i2 + 1 := ⟨i - 1, by omega⟩
          simpa using h i2 (by simpa using hi)
      · intro h i hi
        simpa using h (i + 1) (by simpa using hi)

theorem get_winning_line_some_iff (b : Board) (k : Nat) :
    b.get_winning_line = some k ↔
      k < 8 ∧ lineWins b k ∧ ∀ j, j < k → ¬ lineWins b j := by
  unfold Board.get_winning_line
  rw [winning_line_scan_some b WINNING_LINES 0 k]
  have hlen : WINNING_LINES.length = 8 := rfl
  constructor
  · rintro ⟨i, hi, hk, htrip, hmin⟩
    rw [hlen] at hi
    have hik : k = i := by omega
    subst hik
    exact ⟨hi, htrip, fun j hj => hmin j hj⟩
  · rintro ⟨hk8, hwin, hmin⟩
    exact ⟨k, by omega, by omega, hwin, fun j hj => hmin j hj⟩

theorem get_winning_line_none_iff (b : Board) :
    b.get_winning_line = none ↔ ∀ k, k < 8 → ¬ lineWins b k := by
  unfold Board.get_winning_line
  rw [winning_line_scan_none b WINNING_LINES 0]
  have hlen : WINNING_LINES.length = 8 := rfl
  rw [hlen]
  exact Iff.rfl

/-! ### Properties of the game state machine -/

theorem game_is_valid_move_iff (g : Game) (m : BoardMove) :
    g.is_valid_move m = true ↔ (g.board.cells m.index).isEmptyCell = true := by
  unfold Game.is_valid_move
  rcases g.board.cells m.index with lab | _ | _ <;>
    simp [Cell.isEmptyCell]

theorem find_valid_move_valid (g : Game) (stream : Nat → BoardMove) :
    ∀ (k fuel : Nat) (m : BoardMove) (k2 : Nat),
      g.find_valid_move stream k fuel = some (m, k2) →
        g.is_valid_move m = true
  | k, 0, m, k2, h => by cases h
  | k, fuel + 1, m, k2, h => by
    simp only [Game.find_valid_move] at h
    by_cases hv : g.is_valid_move (stream k) = true
    · rw [if_pos hv] at h
      have h' : (stream k, k + 1) = (m, k2) := by
        injection h
      injection h' with hm hk
      rw [← hm]
      exact hv
    · rw [if_neg hv] at h
      exact find_valid_move_valid g stream (k + 1) fuel m k2 h

theorem take_turn_some (g : Game) (stream : Nat → BoardMove) (k fuel : Nat)
    (g1 : Game) (k1 : Nat) (evs : List UiEvent)
    (h : g.take_turn stream k fuel = (some (g1, k1), evs)) :
    evs = [UiEvent.UpdateBoard g.board] ∧
      ∃ m, g.is_valid_move m = true ∧ g1 = g.current_player_make_move m := by
  unfold Game.take_turn at h
  rcases hf : g.find_valid_move stream k fuel with _ | ⟨m, k2⟩
  · rw [hf] at h
    have h' : ((none : Option (Game × Nat)), [UiEvent.UpdateBoard g.board])
        = (some (g1, k1), evs) := h
    injection h' with hopt hev
    exact Option.noConfusion hopt
  · rw [hf] at h
    have h' : (some (g.current_player_make_move m, k2),
        [UiEvent.UpdateBoard g.board]) = (some (g1, k1), evs) := h
    injection h' with hopt hev
    injection hopt with hp
    injection hp with hg hk
    exact ⟨hev.symm, m, find_valid_move_valid g stream k fuel m k2 hf, hg.symm⟩

theorem check_if_over_board (g : Game) :
    g.check_if_over.board = g.board ∧
      g.check_if_over.current_player = g.current_player ∧
      g.check_if_over.players = g.players := by
  unfold Game.check_if_over
  cases hsc : g.winner_scan WINNING_LINES 0 with
  | some p =>
    obtain ⟨w, idx⟩ := p
    exact ⟨rfl, rfl, rfl⟩
  | none =>
    by_cases ha : ((List.finRange 9).any
        fun i => (g.board.cells i).isEmptyCell) = true
    · rw [if_pos ha]
      exact ⟨rfl, rfl, rfl⟩
    · rw [if_neg ha]
      exact ⟨rfl, rfl, rfl⟩

theorem check_if_over_state (g : Game) :
    g.check_if_over.game_state = g.game_state ∨
      ∃ r, g.check_if_over.game_state = GameState.Finished r := by
  unfold Game.check_if_over
  cases hsc : g.winner_scan WINNING_LINES 0 with
  | some p =>
    obtain ⟨w, idx⟩ := p
    exact Or.inr ⟨_, rfl⟩
  | none =>
    by_cases ha : ((List.finRange 9).any
        fun i => (g.board.cells i).isEmptyCell) = true
    · rw [if_pos ha]
      exact Or.inl rfl
    · rw [if_neg ha]
      exact Or.inr ⟨_, rfl⟩

theorem loop_iter_some (g : Game) (stream : Nat → BoardMove) (k fuel : Nat)
    (g2 : Game) (k2 : Nat) (evs : List UiEvent)
    (h : g.loop_iter stream k fuel = (some (g2, k2), evs)) :
    evs.countP UiEvent.isNotify = 0 ∧
      (g2.game_state = g.game_state ∨
        ∃ r, g2.game_state = GameState.Finished r) ∧
      ∃ m, g.is_valid_move m = true ∧
        g2.board = g.board.place m.index
          (if g.current_player = 0 then Cell.O else Cell.X) ∧
        g2.current_player = (if g.current_player = 0 then 1 else 0) := by
  unfold Game.loop_iter at h
  rcases htt : g.take_turn stream k fuel with ⟨opt, evs0⟩
  rw [htt] at h
  rcases opt with _ | ⟨g1, k1⟩
  · have h' : ((none : Option (Game × Nat)), evs0) = (some (g2, k2), evs) := h
    injection h' with hopt hev
    exact Option.noConfusion hopt
  · have h' : (some ({ g1.check_if_over with
        current_player :=
          if g1.check_if_over.current_player = 0 then 1 else 0 }, k1), evs0)
      = (some (g2, k2), evs) := h
    injection h' with hopt hev
    injection hopt with hp
    injection hp with hg hk
    obtain ⟨hev0, m, hvm, hg1⟩ := take_turn_some g stream k fuel g1 k1 evs0 htt
    subst hg1
    rw [← hg, ← hev, hev0]
    refine ⟨rfl, ?_, m, hvm, ?_, ?_⟩
    · rcases check_if_over_state (g.current_player_make_move m) with hs | ⟨r, hs⟩
      · exact Or.inl hs
      · exact Or.inr ⟨r, hs⟩
    · exact (check_if_over_board (g.current_player_make_move m)).1
    · rw [(check_if_over_board (g.current_player_make_move m)).2.1]
      rfl

theorem loop_iter_players (g : Game) (stream : Nat → BoardMove) (k fuel : Nat)
    (g2 : Game) (k2 : Nat) (evs : List UiEvent)
    (h : g.loop_iter stream k fuel = (some (g2, k2), evs)) :
    g2.players = g.players := by
  unfold Game.loop_iter at h
  rcases htt : g.take_turn stream k fuel with ⟨opt, evs0⟩
  rw [htt] at h
  rcases opt with _ | ⟨g1, k1⟩
  · have h' : ((none : Option (Game × Nat)), evs0) = (some (g2, k2), evs) := h
    injection h' with hopt hev
    exact Option.noConfusion hopt
  · have h' : (some ({ g1.check_if_over with
        current_player :=
          if g1.check_if_over.current_player = 0 then 1 else 0 }, k1), evs0)
      = (some (g2, k2), evs) := h
    injection h' with hopt hev
    injection hopt with hp
    injection hp with hg hk
    obtain ⟨hev0, m, hvm, hg1⟩ := take_turn_some g stream k fuel g1 k1 evs0 htt
    subst hg1
    rw [← hg]
    exact (check_if_over_board (g.current_player_make_move m)).2.2

theorem run_loop_spec :
    ∀ (fuel : Nat) (g : Game) (stream : Nat → BoardMove) (k : Nat) (g2 : Game)
      (evs : List UiEvent),
      Game.run_loop stream fuel g k = some (g2, evs) →
        evs.countP UiEvent.isNotify = 0 ∧
          (g.game_state = GameState.Ongoing →
            ∃ r, g2.game_state = GameState.Finished r) ∧
          (g.game_state ≠ GameState.Ongoing → g2 = g ∧ evs = [])
  | 0, g, stream, k, g2, evs => by
    intro h
    simp only [Game.run_loop] at h
    by_cases ho : g.game_state = GameState.Ongoing
    · rw [if_pos ho] at h
      cases h
    · rw [if_neg ho] at h
      have h' : (some (g, ([] : List UiEvent))) = some (g2, evs) := h
      injection h' with hp
      injection hp with hg hev
      refine ⟨?_, fun hc => absurd hc ho, fun _ => ⟨hg.symm, hev.symm⟩⟩
      rw [← hev]
      rfl
  | fuel + 1, g, stream, k, g2, evs => by
    intro h
    simp only [Game.run_loop] at h
    by_cases ho : g.game_state = GameState.Ongoing
    · rw [if_pos ho] at h
      rcases hli : g.loop_iter stream k fuel with ⟨opt, evs1⟩
      rw [hli] at h
      rcases opt with _ | ⟨g3, k3⟩
      · cases h
      · have h2 : (match Game.run_loop stream fuel g3 k3 with
            | some (g4, evs2) => some (g4, evs1 ++ evs2)
            | none => none) = some (g2, evs) := h
        rcases hrl : Game.run_loop stream fuel g3 k3 with _ | ⟨g4, evs2⟩
        · rw [hrl] at h2
          cases h2
        · rw [hrl] at h2
          have h' : some (g4, evs1 ++ evs2) = some (g2, evs) := h2
          injection h' with hp
          injection hp with hg hev
          obtain ⟨hc1, hst, -⟩ :=
            loop_iter_some g stream k fuel g3 k3 evs1 hli
          obtain ⟨hc2, hfin, hstop⟩ :=
            run_loop_spec fuel g3 stream k3 g4 evs2 hrl
          subst hg
          subst hev
          constructor
          · rw [List.countP_append, hc1, hc2]
          refine ⟨fun _ => ?_, fun hc => absurd ho hc⟩
          rcases hst with hs | ⟨r, hs⟩
          · exact hfin (hs.trans ho)
          · obtain ⟨hg4, -⟩ := hstop (by rw [hs]; intro hc; cases hc)
            exact ⟨r, by rw [hg4, hs]⟩
    · rw [if_neg ho] at h
      have h' : (some (g, ([] : List UiEvent))) = some (g2, evs) := h
      injection h' with hp
      injection hp with hg hev
      refine ⟨?_, fun hc => absurd hc ho, fun _ => ⟨hg.symm, hev.symm⟩⟩
      rw [← hev]
      rfl

theorem announce_result_finished (g : Game) (r : GameResult)
    (h : g.game_state = GameState.Finished r) :
    g.announce_result
      = [UiEvent.UpdateBoard g.board, UiEvent.NotifyResult r] := by
  unfold Game.announce_result
  rw [h]

theorem start_of_not_notStarted (g : Game) (stream : Nat → BoardMove)
    (fuel : Nat) (h : g.game_state ≠ GameState.NotStarted) :
    g.start stream fuel = some (g, []) := by
  unfold Game.start
  rw [if_neg h]

theorem run_loop_players :
    ∀ (fuel : Nat) (g : Game) (stream : Nat → BoardMove) (k : Nat) (g2 : Game)
      (evs : List UiEvent),
      Game.run_loop stream fuel g k = some (g2, evs) → g2.players = g.players
  | 0, g, stream, k, g2, evs => by
    intro h
    simp only [Game.run_loop] at h
    by_cases ho : g.game_state = GameState.Ongoing
    · rw [if_pos ho] at h
      cases h
    · rw [if_neg ho] at h
      have h' : (some (g, ([] : List UiEvent))) = some (g2, evs) := h
      injection h' with hp
      injection hp with hg hev
      rw [← hg]
  | fuel + 1, g, stream, k, g2, evs => by
    intro h
    simp only [Game.run_loop] at h
    by_cases ho : g.game_state = GameState.Ongoing
    · rw [if_pos ho] at h
      rcases hli : g.loop_iter stream k fuel with ⟨opt, evs1⟩
      rw [hli] at h
      rcases opt with _ | ⟨g3, k3⟩
      · cases h
      · have h2 : (match Game.run_loop stream fuel g3 k3 with
            | some (g4, evs2) => some (g4, evs1 ++ evs2)
            | none => none) = some (g2, evs) := h
        rcases hrl : Game.run_loop stream fuel g3 k3 with _ | ⟨g4, evs2⟩
        · rw [hrl] at h2
          cases h2
        · rw [hrl] at h2
          have h' : some (g4, evs1 ++ evs2) = some (g2, evs) := h2
          injection h' with hp
          injection hp with hg hev
          rw [← hg, run_loop_players fuel g3 stream k3 g4 evs2 hrl,
            loop_iter_players g stream k fuel g3 k3 evs1 hli]
    · rw [if_neg ho] at h
      have h' : (some (g, ([] : List UiEvent))) = some (g2, evs) := h
      injection h' with hp
      injection hp with hg hev
      rw [← hg]

/-! ### The specification claims -/

/-- C5: for every board, `get_winning_line()` returns `some k` exactly when
`k` is the smallest line index in `0`-`7` (in the fixed ascending line order)
whose three cells all hold the same non-empty mark, and `none` when no such
line exists; in particular it returns `none` on a freshly constructed
board. -/
theorem c5_get_winning_line_spec (b : Board) :
    (∀ k, b.get_winning_line = some k ↔
        k < 8 ∧ lineWins b k ∧ ∀ j, j < k → ¬ lineWins b j)
    ∧ (b.get_winning_line = none ↔ ∀ k, k < 8 → ¬ lineWins b k)
    ∧ Board.new.get_winning_line = none :=
  ⟨fun k => get_winning_line_some_iff b k, get_winning_line_none_iff b,
    by decide⟩

theorem c5_witness : colWinBoardW.get_winning_line = some 0 :=
  ((c5_get_winning_line_spec colWinBoardW).1 0).mpr (by decide)

/-- C6: for every board, `get_possible_moves()` returns exactly the moves
whose zero-based indices are the empty cells, in ascending index order;
consequently `legal_moves().len() + occupied_cell_count == 9`, and after
placing a mark at an index that index never reappears in the returned legal
moves. -/
theorem c6_get_possible_moves_spec (b : Board) :
    (∀ m : BoardMove, m ∈ b.get_possible_moves ↔
        (b.cells m.index).isEmptyCell = true)
    ∧ (b.get_possible_moves.map fun m => (m.index : Nat)).Sorted (· < ·)
    ∧ b.get_possible_moves.length + b.occupiedCount = 9
    ∧ ∀ (i : Fin 9) (c : Cell), c.isMark = true →
        ∀ m ∈ (b.place i c).get_possible_moves, m.index ≠ i := by
  refine ⟨mem_get_possible_moves b, ?_, ?_, ?_⟩
  · rw [get_possible_moves_eq, List.map_map]
    have hp := List.pairwise_lt_finRange 9
    have hf := hp.filter fun i => (b.cells i).isEmptyCell
    exact hf.map _ fun a c hac => hac
  · rw [length_get_possible_moves]
    exact emptyCount_add_occupiedCount b
  · intro i c hc m hm hmi
    have hemp := (mem_get_possible_moves _ m).mp hm
    rw [hmi] at hemp
    have hcc : (b.place i c).cells i = c := by simp [Board.place]
    rw [hcc, Cell.isEmptyCell_eq_not_isMark, hc] at hemp
    cases hemp

theorem c6_witness :
    (⟨0⟩ : BoardMove) ∉ (Board.new.place 0 Cell.O).get_possible_moves :=
  fun hm => absurd rfl
    ((c6_get_possible_moves_spec Board.new).2.2.2 0 Cell.O rfl ⟨0⟩ hm)

/-- C10: for every game state and every move, the `Game`'s move-validity
check (a direct pattern-match that the cell at the move's index is empty) and
the `Board`'s move-validity check (membership in `get_possible_moves()`)
return the same boolean. -/
theorem c10_is_valid_move_equiv (g : Game) (m : BoardMove) :
    g.is_valid_move m = g.board.is_valid_move m := by
  have hb : g.board.is_valid_move m = true ↔
      m ∈ g.board.get_possible_moves := by
    unfold Board.is_valid_move
    exact List.elem_iff
  rw [Bool.eq_iff_iff, game_is_valid_move_iff g m, hb,
    mem_get_possible_moves g.board m]

/-- C8: invoking the search engine on a full board is a fatal fault: with no
legal moves the candidate list stays empty and `gen_range(0..0)` panics
(modelled by `none`), for every full board and every random draw. -/
theorem c8_full_board_panics (b : Board) (randomIndex : Nat)
    (h : b.is_full = true) :
    Player.best_moves b = [] ∧
      Player.calculate_best_move b randomIndex = none := by
  have hec := (is_full_true_iff b).mp h
  have hmoves : b.get_possible_moves = [] := by
    rw [← List.length_eq_zero, length_get_possible_moves, hec]
  have hbm : Player.best_moves b = [] := by
    unfold Player.best_moves
    rw [hmoves]
    rfl
  refine ⟨hbm, ?_⟩
  unfold Player.calculate_best_move
  exact dif_pos (by rw [hbm]; rfl)

theorem c8_witness :
    Player.best_moves fullBoardW = [] ∧
      Player.calculate_best_move fullBoardW 0 = none :=
  c8_full_board_panics fullBoardW 0 (by decide)

/-- C1: the recursive evaluator returns `100 - depth` when the board has a
winning line whose mark equals the maximizing mark, `depth - 100` when it is
the opponent's, `0` when the board is full with no winning line, and
otherwise folds, over every legal move, the evaluator applied to the board
with that move placed (with this ply's turn mark), one ply deeper with
`is_maximizing_turn` flipped and the depth incremented, combining child
scores with `max` on a maximizing ply and `min` otherwise (the maximizing
mark is a mark, as in every call the program makes). -/
theorem c1_minimax_spec (b : Board) (maxSym : Cell) (isMax : Bool)
    (depth : Int) (hm : maxSym.isMark = true) :
    (∀ idx, b.get_winning_line = some idx →
        Player.minimax b maxSym isMax depth
          = if b.cells (lineAt idx).1 = maxSym then 100 - depth
            else depth - 100)
    ∧ (b.get_winning_line = none → b.is_full = true →
        Player.minimax b maxSym isMax depth = 0)
    ∧ (b.get_winning_line = none → b.is_full = false →
        Player.minimax b maxSym isMax depth
          = (b.get_possible_moves).foldl
              (fun best_score m =>
                (if isMax then max else min) best_score
                  (Player.minimax
                    (b.place m.index
                      (if isMax then maxSym else maxSym.opposite))
                    maxSym (!isMax) (depth + 1)))
              (if isMax then -1000 else 1000)) := by
  refine ⟨?_, ?_, ?_⟩
  · intro idx hw
    exact minimaxAux_win b.emptyCount b maxSym isMax depth idx hw
  · intro hw hf
    exact minimaxAux_draw b.emptyCount b maxSym isMax depth hw hf
  · intro hw hf
    have hec : 0 < b.emptyCount := (is_full_false_iff b).mp hf
    obtain ⟨k, hk⟩ : ∃ k, b.emptyCount = k + 1 := ⟨b.emptyCount - 1, by omega⟩
    unfold Player.minimax
    rw [hk, minimaxAux_step k b maxSym isMax depth hw hf]
    apply List.foldl_ext
    intro acc m hmem
    have hcm : (if isMax then maxSym else maxSym.opposite).isMark = true := by
      cases isMax
      · exact Cell.opposite_isMark maxSym hm
      · exact hm
    have hemp := (mem_get_possible_moves b m).mp hmem
    have hplace := emptyCount_place b m.index _ hemp hcm
    have hke : (b.place m.index
        (if isMax then maxSym else maxSym.opposite)).emptyCount = k := by
      omega
    rw [hke]

theorem c1_witness : Player.minimax drawBoardW Cell.O true 1 = 0 :=
  (c1_minimax_spec drawBoardW Cell.O true 1 rfl).2.1 (by decide) (by decide)

/-- C2: on every board with at least one legal move, the search engine
collects into its candidate list exactly the legal moves whose one-ply-ahead
evaluation (minimax with the opponent to move at depth 1) attains the
maximum over all legal moves, and whatever the random draw, the returned
move is a member of that candidate list — in particular a legal move. -/
theorem c2_calculate_best_move_spec (b : Board) (randomIndex : Nat)
    (h : b.get_possible_moves ≠ []) :
    ∃ m, Player.calculate_best_move b randomIndex = some m
      ∧ m ∈ Player.best_moves b
      ∧ Player.best_moves b
          = (b.get_possible_moves).filter
              (fun mv => decide (Player.moveScore b mv = Player.maxEval b))
      ∧ (∀ mv ∈ b.get_possible_moves,
          Player.moveScore b mv ≤ Player.maxEval b)
      ∧ (∃ mv ∈ b.get_possible_moves,
          Player.moveScore b mv = Player.maxEval b)
      ∧ m ∈ b.get_possible_moves := by
  have hmax := maximizing_player_symbol_isMark b
  have hscore : ∀ mv ∈ b.get_possible_moves,
      -99 ≤ Player.moveScore b mv ∧ Player.moveScore b mv ≤ 99 := by
    intro mv hmv
    have hemp := (mem_get_possible_moves b mv).mp hmv
    have hplace := emptyCount_place b mv.index _ hemp hmax
    have hec9 := emptyCount_le_nine b
    exact minimaxAux_bounds _ _ _ false 1 hmax (le_refl _) (by omega)
      (by omega)
  have hub : ∀ mv ∈ b.get_possible_moves,
      Player.moveScore b mv ≤ Player.maxEval b := by
    intro mv hmv
    exact le_foldl_max_of_mem (fun mv => Player.moveScore b mv) _ (-1000)
      mv hmv
  have hat : ∃ mv ∈ b.get_possible_moves,
      Player.moveScore b mv = Player.maxEval b := by
    rcases foldl_max_attained (fun mv => Player.moveScore b mv)
        (b.get_possible_moves) (-1000) with he | ⟨x, hx, hfx⟩
    · obtain ⟨m0, hm0⟩ := List.exists_mem_of_ne_nil _ h
      have h1 := hub m0 hm0
      have h2 := (hscore m0 hm0).1
      have he2 : Player.maxEval b = -1000 := he
      omega
    · have hfx2 : Player.maxEval b = Player.moveScore b x := hfx
      exact ⟨x, hx, hfx2.symm⟩
  have hfilter := best_moves_eq_filter b
  obtain ⟨x, hx, hfx⟩ := hat
  have hxbm : x ∈ Player.best_moves b := by
    rw [hfilter]
    exact List.mem_filter.mpr ⟨hx, by simpa using hfx⟩
  have hne : (Player.best_moves b).length ≠ 0 := by
    intro h0
    rw [List.length_eq_zero] at h0
    rw [h0] at hxbm
    cases hxbm
  refine ⟨(Player.best_moves b).get
      ⟨randomIndex % (Player.best_moves b).length,
        Nat.mod_lt _ (Nat.pos_of_ne_zero hne)⟩,
    ?_, List.get_mem _ _ _, hfilter, hub, ⟨x, hx, hfx⟩, ?_⟩
  · unfold Player.calculate_best_move
    rw [dif_neg hne]
  · have hsub : ∀ mv ∈ Player.best_moves b, mv ∈ b.get_possible_moves := by
      intro mv hmv
      rw [hfilter] at hmv
      exact List.mem_of_mem_filter hmv
    exact hsub _ (List.get_mem _ _ _)

theorem c2_witness :
    ∃ m, Player.calculate_best_move Board.new 0 = some m
      ∧ m ∈ Player.best_moves Board.new
      ∧ Player.best_moves Board.new
          = (Board.new.get_possible_moves).filter
              (fun mv =>
                decide (Player.moveScore Board.new mv
                  = Player.maxEval Board.new))
      ∧ (∀ mv ∈ Board.new.get_possible_moves,
          Player.moveScore Board.new mv ≤ Player.maxEval Board.new)
      ∧ (∃ mv ∈ Board.new.get_possible_moves,
          Player.moveScore Board.new mv = Player.maxEval Board.new)
      ∧ m ∈ Board.new.get_possible_moves :=
  c2_calculate_best_move_spec Board.new 0 (by decide)

/-- C3 fails as stated: on the board `[O,_,X,O,O,_,_,_,X]` five cells are
occupied, so the engine's parity derivation makes `X` (not `O`) the mark to
move, and placing the derived mark at index 5 completes the column `2-5-8`
(line index 2), not `O`'s row `3-4-5` (line index 4). -/
theorem c3_counterexample :
    ¬ (Player.maximizing_player_symbol boardC3 = Cell.O
        ∧ (boardC3.place 5
            (Player.maximizing_player_symbol boardC3)).get_winning_line
          = some 4) := by
  decide

/-- C3 amended: on the board `[O,_,X,O,O,_,_,_,X]` the parity-derived
maximizing mark is `X`, the move at index 5 (completing `X`'s line `2-5-8`,
line index 2) is the unique optimal candidate, and the search engine returns
that move for every random draw. -/
theorem c3_amended_unique_best_move :
    Player.maximizing_player_symbol boardC3 = Cell.X
      ∧ Player.best_moves boardC3 = [⟨5⟩]
      ∧ (boardC3.place 5 Cell.X).get_winning_line = some 2
      ∧ ∀ randomIndex : Nat,
          Player.calculate_best_move boardC3 randomIndex = some ⟨5⟩ := by
  have hbm : Player.best_moves boardC3 = [⟨5⟩] := by decide
  refine ⟨by decide, hbm, by decide, ?_⟩
  intro randomIndex
  have hne : (Player.best_moves boardC3).length ≠ 0 := by
    rw [hbm]
    simp
  unfold Player.calculate_best_move
  rw [dif_neg hne]
  have hmem := List.get_mem (Player.best_moves boardC3)
    (randomIndex % (Player.best_moves boardC3).length)
    (Nat.mod_lt _ (Nat.pos_of_ne_zero hne))
  have hsingle : ∀ mv ∈ Player.best_moves boardC3, mv = (⟨5⟩ : BoardMove) := by
    intro mv hmv
    rw [hbm] at hmv
    exact List.mem_singleton.mp hmv
  exact congrArg some (hsingle _ hmem)

/-- C9 is a code bug: `impl fmt::Display for BoardMove` writes
`self.index() - 1`, so the move built from `n = 2` (internal index 1)
displays `0` instead of the original 1-based number `2`; for `n = 1`
(internal index 0) the `usize` subtraction wraps to `2^64 - 1` in a release
build (and would panic in a debug build).  The specification's lost intent is
`self.index() + 1`. -/
theorem c9_display_bug :
    BoardMove.try_new 2 = Except.ok ⟨1⟩
      ∧ BoardMove.displayNum ⟨1⟩ = 0
      ∧ (0 : Nat) ≠ 2
      ∧ BoardMove.displayNum ⟨0⟩ = 2 ^ 64 - 1 := by
  refine ⟨rfl, by decide, by decide, by decide⟩

/-- C4 fails as stated on one point: the Rust `Game::start` has return type
`()`, so a subsequent call cannot "return the already-computed result" — two
finished games whose stored results differ produce identical return values. -/
theorem c4_counterexample :
    gDrawW.game_state = GameState.Finished GameResult.Draw
      ∧ g1W.game_state = GameState.Finished (GameResult.PlayerWon "A" 3)
      ∧ GameResult.Draw ≠ GameResult.PlayerWon "A" 3
      ∧ Game.startReturn gDrawW streamW 1 = Game.startReturn g1W streamW 1 := by
  refine ⟨rfl, rfl, ?_, ?_⟩
  · intro hc
    cases hc
  · have h1 : Game.startReturn gDrawW streamW 1 = some () := rfl
    have h2 : Game.startReturn g1W streamW 1 = some () := rfl
    rw [h1, h2]

/-- C4 amended: `start()` is a no-op unless the state is `NotStarted`; when
the first call drives the match to completion (the call returns, with final
state `Finished`), the terminal result is delivered to the presentation
collaborator exactly once in total across any sequence of `start()` calls:
the completing call notifies exactly once, and every subsequent call leaves
the game (board and stored result included) unchanged and performs no `Ui`
call at all.  `start` itself returns no value; the already-computed result
stays stored in the `Finished` state. -/
theorem c4_start_spec (g0 g1 : Game) (stream : Nat → BoardMove) (fuel : Nat)
    (evs : List UiEvent)
    (h0 : g0.game_state = GameState.NotStarted)
    (h : g0.start stream fuel = some (g1, evs)) :
    (∃ r, g1.game_state = GameState.Finished r)
      ∧ evs.countP UiEvent.isNotify = 1
      ∧ (∀ (stream2 : Nat → BoardMove) (fuel2 : Nat),
          g1.start stream2 fuel2 = some (g1, []))
      ∧ (∀ (g : Game) (stream2 : Nat → BoardMove) (fuel2 : Nat),
          g.game_state ≠ GameState.NotStarted →
            g.start stream2 fuel2 = some (g, [])) := by
  unfold Game.start at h
  rw [if_pos h0] at h
  rcases hrl : Game.run_loop stream fuel
      { g0 with game_state := GameState.Ongoing } 0 with _ | ⟨g2, evs2⟩
  · rw [hrl] at h
    cases h
  · rw [hrl] at h
    have h' : some (g2, evs2 ++ g2.announce_result) = some (g1, evs) := h
    injection h' with hp
    injection hp with hg hev
    obtain ⟨hc0, hfin, -⟩ := run_loop_spec fuel _ stream 0 g2 evs2 hrl
    obtain ⟨r, hr⟩ := hfin rfl
    subst hg
    refine ⟨⟨r, hr⟩, ?_, ?_, ?_⟩
    · rw [← hev, List.countP_append, hc0, announce_result_finished g2 r hr]
      rfl
    · intro stream2 fuel2
      apply start_of_not_notStarted
      rw [hr]
      intro hc
      cases hc
    · intro g stream2 fuel2 hns
      exact start_of_not_notStarted g stream2 fuel2 hns

theorem c4_witness :
    evsW.countP UiEvent.isNotify = 1
      ∧ Game.start g1W streamW 2 = some (g1W, []) := by
  have h := c4_start_spec g0W g1W streamW 2 evsW rfl rfl
  exact ⟨h.2.1, h.2.2.1 streamW 2⟩

/-- C7: in every state reachable by the turn loop, turn ownership derived
from cell-occupancy parity agrees with the `Game`'s index-to-mark convention:
the occupied-cell count is even exactly when player index 0 is to move, the
parity-derived mark equals the mark the `Game` writes for the current player
index (`O` for index 0, `X` for index 1), and the `Game`'s move application
writes exactly that mark. -/
theorem c7_parity_consistent (g : Game) (h : Game.Reachable g) :
    (g.board.occupiedCount % 2 = 0 ↔ g.current_player = 0)
      ∧ Player.maximizing_player_symbol g.board
          = (if g.current_player = 0 then Cell.O else Cell.X)
      ∧ ∀ m : BoardMove,
          (g.current_player_make_move m).board
            = g.board.place m.index
                (if g.current_player = 0 then Cell.O else Cell.X) := by
  have hpar : g.board.occupiedCount % 2 = 0 ↔ g.current_player = 0 := by
    induction h with
    | init p1 p2 =>
      have h0 : (Game.new p1 p2).board.occupiedCount = 0 := rfl
      have h1 : (Game.new p1 p2).current_player = 0 := rfl
      rw [h0, h1]
    | started g2 hr hns ih => exact ih
    | step g2 stream k fuel g3 k3 evs hr ho hi ih =>
      obtain ⟨-, -, m, hvm, hb, hcp⟩ := loop_iter_some g2 stream k fuel g3 k3 evs hi
      have hemp : (g2.board.cells m.index).isEmptyCell = true :=
        (game_is_valid_move_iff g2 m).mp hvm
      have hmark : (if g2.current_player = 0 then Cell.O else Cell.X).isMark
          = true := by
        by_cases hc : g2.current_player = 0
        · rw [if_pos hc]
          rfl
        · rw [if_neg hc]
          rfl
      have hocc := occupiedCount_place g2.board m.index _ hemp hmark
      rw [hb, hocc, hcp]
      by_cases hc : g2.current_player = 0
      · have he := ih.mpr hc
        rw [if_pos hc]
        constructor <;> intro hx <;> omega
      · have ho2 : ¬ g2.board.occupiedCount % 2 = 0 := fun hx => hc (ih.mp hx)
        rw [if_neg hc]
        constructor <;> intro hx <;> omega
  refine ⟨hpar, ?_, fun m => rfl⟩
  unfold Player.maximizing_player_symbol
  by_cases hc : g.current_player = 0
  · rw [if_pos hc, if_pos (hpar.mpr hc)]
  · rw [if_neg hc, if_neg (fun hx => hc (hpar.mp hx))]

theorem c7_witness :
    Player.maximizing_player_symbol (Game.new Player.CPU Player.CPU).board
      = (if (Game.new Player.CPU Player.CPU).current_player = 0 then Cell.O
         else Cell.X) :=
  (c7_parity_consistent (Game.new Player.CPU Player.CPU)
    (Game.Reachable.init Player.CPU Player.CPU)).2.1
